import Mathlib

/-!
Verification development for the mlx-audio Bark-style generation pipeline.

Part A embeds the weight-normalized 1-D convolution primitives of
src/mlx_audio/codec/models/bigvgan/conv.py over the reals: tensors of
shape (out_channels, kernel_size, in_channels) are functions
ℕ → ℕ → ℕ → ℝ read on Finset.range bounds, the temporal axis is ℤ with
inputs given as total functions (zero extension is the caller's choice).

Part B models, from the specification only, the generation-control
components whose implementation is not in this source tree: the sampling
policy, the key/value cache truncation, and the coarse/fine stage shape
contracts.
-/

noncomputable section

/-- Transcription of normalize_weight for a 3-dimensional (O, K, I) tensor
with except_dim = 0: per-output-channel Euclidean norm over the kernel and
input-channel axes, for channels read on ranges K and I. -/
def wnorm0 (K I : ℕ) (v : ℕ → ℕ → ℕ → ℝ) (o : ℕ) : ℝ :=
  Real.sqrt (∑ k ∈ Finset.range K, ∑ i ∈ Finset.range I, v o k i ^ 2)

/-- Transcription of normalize_weight for a 3-dimensional (O, K, I) tensor
with except_dim = 2: per-input-channel Euclidean norm over the
output-channel and kernel axes. -/
def wnorm2 (O K : ℕ) (v : ℕ → ℕ → ℕ → ℝ) (i : ℕ) : ℝ :=
  Real.sqrt (∑ o ∈ Finset.range O, ∑ k ∈ Finset.range K, v o k i ^ 2)

/-- Dynamically shaped tensor used to state the run-time dimension check of
normalize_weight: a shape list plus data indexed by an axis-to-coordinate
assignment. -/
structure NDTensor where
  shape : List ℕ
  data : (ℕ → ℕ) → ℝ

/-- Number of axes, as the Python x.ndim. -/
def NDTensor.ndim (x : NDTensor) : ℕ := x.shape.length

/-- Embedding of normalize_weight from conv.py: raises ValueError unless the
input has exactly 3 dimensions, otherwise returns the square root of the sum
of squares over all axes other than except_dim, with dimensions kept. -/
def normalize_weight (x : NDTensor) (except_dim : ℕ) : Except String NDTensor :=
  if x.ndim ≠ 3 then
    Except.error ("Input tensor must have 3 dimensions")
  else
    Except.ok
      ⟨(List.range 3).map (fun a => if a = except_dim then x.shape.getD a 1 else 1),
        fun idx =>
          Real.sqrt (∑ j0 ∈ Finset.range (x.shape.getD 0 0),
            ∑ j1 ∈ Finset.range (x.shape.getD 1 0),
              ∑ j2 ∈ Finset.range (x.shape.getD 2 0),
                if [j0, j1, j2].getD except_dim (idx except_dim) = idx except_dim then
                  x.data (fun a => [j0, j1, j2].getD a 0) ^ 2
                else 0)⟩

instance : Inhabited NDTensor := ⟨⟨[], fun _ => 0⟩⟩

/-- Effective kernel of WNConv1d.call: weight_g * weight_v / normalize_weight(weight_v),
with the norm taken per output channel (except_dim = 0). -/
def effW1 (K I : ℕ) (g : ℕ → ℝ) (v : ℕ → ℕ → ℕ → ℝ) : ℕ → ℕ → ℕ → ℝ :=
  fun o k i => g o * v o k i / wnorm0 K I v o

/-- Effective kernel of WNConvTranspose1d.call: weight_g * weight_v /
normalize_weight(weight_v, except_dim=2), with the norm per input channel. -/
def effWT (O K : ℕ) (g : ℕ → ℝ) (v : ℕ → ℕ → ℕ → ℝ) : ℕ → ℕ → ℕ → ℝ :=
  fun o k i => g i * v o k i / wnorm2 O K v i

/-- Idealized mx.conv1d over channels-last data: input (time, channel),
weight (out_channel, tap, in_channel-per-group), grouped, strided, dilated,
zero-padded convolution; the time axis is all of ℤ. -/
def conv1d (K Cin Cout groups stride padding dilation : ℕ)
    (x : ℤ → ℕ → ℝ) (w : ℕ → ℕ → ℕ → ℝ) : ℤ → ℕ → ℝ :=
  fun t co => ∑ k ∈ Finset.range K, ∑ ci ∈ Finset.range Cin,
    x (t * (stride : ℤ) + (k : ℤ) * (dilation : ℤ) - (padding : ℤ))
        (co / (Cout / groups) * Cin + ci) * w co k ci

/-- Idealized mx.conv_transpose1d: output position t collects every input
position s and tap k with s * stride + k * dilation = t + padding;
output_padding only extends the materialized length and does not alter
values, so it does not appear here. -/
def convTranspose1d (K Cin stride padding dilation : ℕ)
    (x : ℤ → ℕ → ℝ) (w : ℕ → ℕ → ℕ → ℝ) : ℤ → ℕ → ℝ :=
  fun t co => ∑ k ∈ Finset.range K, ∑ ci ∈ Finset.range Cin,
    (if (stride : ℤ) ∣ (t + (padding : ℤ) - (k : ℤ) * (dilation : ℤ)) then
        x ((t + (padding : ℤ) - (k : ℤ) * (dilation : ℤ)) / (stride : ℤ)) ci
      else 0) * w co k ci

/-- Module state of WNConv1d: the integer hyperparameters stored by __init__,
the optional bias array, and the two weight-norm parameters. -/
structure WNConv1d where
  in_channels : ℕ
  out_channels : ℕ
  kernel_size : ℕ
  stride : ℕ
  padding : ℕ
  dilation : ℕ
  groups : ℕ
  bias : Option (ℕ → ℝ)
  weight_g : ℕ → ℝ
  weight_v : ℕ → ℕ → ℕ → ℝ

/-- The 1e-12 stabilizer added to the norm in both __init__ bodies. -/
def eps : ℝ := 1 / 10 ^ 12

/-- WNConv1d.__init__, with the mx.random.uniform draw passed in explicitly
as weight_init: stores hyperparameters, a zero bias when requested,
weight_g = normalize_weight(weight_init) and
weight_v = weight_init / (weight_g + 1e-12). -/
def WNConv1d.init (in_channels out_channels kernel_size stride padding dilation groups : ℕ)
    (bias : Bool) (weight_init : ℕ → ℕ → ℕ → ℝ) : WNConv1d :=
  ⟨in_channels, out_channels, kernel_size, stride, padding, dilation, groups,
    if bias then some (fun _ => 0) else none,
    fun o => wnorm0 kernel_size in_channels weight_init o,
    fun o k i => weight_init o k i / (wnorm0 kernel_size in_channels weight_init o + eps)⟩

/-- Names of the mx.array attributes of a constructed WNConv1d, in attribute
order; under mlx.nn these are exactly the trained parameters the module
holds. -/
def WNConv1d.trainedParams (m : WNConv1d) : List String :=
  (if m.bias.isSome then ["bias"] else []) ++ ["weight_g", "weight_v"]

/-- WNConv1d.__call__: effective kernel weight_g * weight_v /
normalize_weight(weight_v), convolution, then bias when present. -/
def WNConv1d.call (m : WNConv1d) (x : ℤ → ℕ → ℝ) : ℤ → ℕ → ℝ :=
  let weight : ℕ → ℕ → ℕ → ℝ := fun o k i =>
    m.weight_g o * m.weight_v o k i / wnorm0 m.kernel_size m.in_channels m.weight_v o
  let y := conv1d m.kernel_size m.in_channels m.out_channels m.groups
    m.stride m.padding m.dilation x weight
  match m.bias with
  | some b => fun t co => y t co + b co
  | none => y

/-- Module state of WNConvTranspose1d: its __init__ takes output_padding in
place of groups, and stores bias = None when the flag is false. -/
structure WNConvTranspose1d where
  in_channels : ℕ
  out_channels : ℕ
  kernel_size : ℕ
  stride : ℕ
  padding : ℕ
  dilation : ℕ
  output_padding : ℕ
  bias : Option (ℕ → ℝ)
  weight_g : ℕ → ℝ
  weight_v : ℕ → ℕ → ℕ → ℝ

/-- WNConvTranspose1d.__init__ with the random draw passed in explicitly:
weight_g = normalize_weight(weight_init, except_dim=2), weight_v =
weight_init / (weight_g + 1e-12). -/
def WNConvTranspose1d.init
    (in_channels out_channels kernel_size stride padding dilation output_padding : ℕ)
    (bias : Bool) (weight_init : ℕ → ℕ → ℕ → ℝ) : WNConvTranspose1d :=
  ⟨in_channels, out_channels, kernel_size, stride, padding, dilation, output_padding,
    if bias then some (fun _ => 0) else none,
    fun i => wnorm2 out_channels kernel_size weight_init i,
    fun o k i => weight_init o k i / (wnorm2 out_channels kernel_size weight_init i + eps)⟩

/-- Names of the mx.array attributes of a constructed WNConvTranspose1d. -/
def WNConvTranspose1d.trainedParams (m : WNConvTranspose1d) : List String :=
  (if m.bias.isSome then ["bias"] else []) ++ ["weight_g", "weight_v"]

/-- WNConvTranspose1d.__call__: effective kernel with per-input-channel norm,
transposed convolution, then bias when not None. -/
def WNConvTranspose1d.call (m : WNConvTranspose1d) (x : ℤ → ℕ → ℝ) : ℤ → ℕ → ℝ :=
  let weight : ℕ → ℕ → ℕ → ℝ := fun o k i =>
    m.weight_g i * m.weight_v o k i / wnorm2 m.out_channels m.kernel_size m.weight_v i
  let y := convTranspose1d m.kernel_size m.in_channels
    m.stride m.padding m.dilation x weight
  match m.bias with
  | some b => fun t co => y t co + b co
  | none => y

/-- Plain convolution post-processing: add the bias vector when one is
present. Used to state that a weight-norm call is a plain convolution with
the effective kernel plus bias. -/
def addBias (b : Option (ℕ → ℝ)) (y : ℤ → ℕ → ℝ) : ℤ → ℕ → ℝ :=
  match b with
  | some bb => fun t co => y t co + bb co
  | none => y

/-- Modelled from the spec: the softmax weights of SamplingPolicy.sample
(section 4.1; the sampler implementation is not under src). Logits are
scaled by 1/temperature, positions outside the restriction set R are set to
negative infinity, i.e. their exponential weight is 0, and the maximum of
the allowed scaled logits is subtracted before exponentiating. -/
def sampleWeights (V : ℕ) (logits : Fin V → ℝ) (temperature : ℝ)
    (R : Finset (Fin V)) (hR : R.Nonempty) : Fin V → ℝ :=
  fun i =>
    if i ∈ R then
      Real.exp (logits i / temperature - R.sup' hR (fun j => logits j / temperature))
    else 0

/-- Modelled from the spec: inverse-CDF draw from an unnormalized weight
vector. Walk the indices; when the residual mass u falls inside the current
weight, return that index, otherwise subtract and continue; the last visited
index is the fallback. -/
def drawFrom {V : ℕ} (w : Fin V → ℝ) : ℝ → List (Fin V) → Fin V → Fin V
  | _, [], d => d
  | u, i :: rest, _ => if u < w i then i else drawFrom w (u - w i) rest i

/-- Modelled from the spec: SamplingPolicy.sample (section 4.1; the sampler
implementation is not under src). Absent restriction means the whole
vocabulary; an empty allowed set (all logits masked) is a fatal
configuration error; otherwise one index is drawn from the categorical
distribution of the masked temperature-scaled softmax, with the uniform
draw u supplied by the caller's random stream. -/
def sample (V : ℕ) (logits : Fin V → ℝ) (temperature : ℝ)
    (restrict : Option (Finset (Fin V))) (u : ℝ) : Except String (Fin V) :=
  if hR : (restrict.getD Finset.univ).Nonempty then
    Except.ok
      (drawFrom (sampleWeights V logits temperature (restrict.getD Finset.univ) hR)
        (u * ∑ i ∈ restrict.getD Finset.univ,
          sampleWeights V logits temperature (restrict.getD Finset.univ) hR i)
        (List.finRange V)
        ((restrict.getD Finset.univ).min' hR))
  else Except.error ("all allowed logits are masked: empty restriction set")

/-- Modelled from the spec: KVCache owns an ordered list of per-time-step
entries (section 4.2; the cache implementation is not under src). -/
structure KVCache (α : Type) where
  steps : List α

/-- Logical length counter of the cache. -/
def KVCache.length {α : Type} (c : KVCache α) : ℕ := c.steps.length

/-- Modelled from the spec: truncate_to_last(n) drops all but the most
recent n steps, keeping the tail in order; it is total, so it never
raises. -/
def KVCache.truncate_to_last {α : Type} (c : KVCache α) (n : ℕ) : KVCache α :=
  ⟨c.steps.drop (c.length - n)⟩

/-- Number of coarse codebooks: fixed at 2 per the spec and the pipeline
test assertion coarse_tokens.shape[0] == 2. -/
def N_COARSE_CODEBOOKS : ℕ := 2

/-- Total number of codebooks after fine refinement: fixed at 8 per the
spec scenario and the pipeline test assertion fine_tokens.shape[0] == 8. -/
def N_FINE_CODEBOOKS : ℕ := 8

/-- Modelled from the spec: the de-interleave of CoarseStage output
(section 4.4; the stage implementation is not under src). Codebook c of n
takes the flat-stream positions c, c + n, c + 2n, ... so codebook 0 sits at
even positions and codebook 1 at odd positions in the 2-codebook case. -/
def deInterleave (n : ℕ) (flat : List ℕ) : List (List ℕ) :=
  (List.range n).map (fun c =>
    (List.range (flat.length / n)).map (fun t => flat.getD (t * n + c) 0))

/-- Modelled from the spec: the deterministic coarse length as a fixed
ratio of the semantic sequence length (section 4.4: a fixed number of steps
derived from the semantic length, not a learned stop token). -/
def coarseLen (ratio semLen : ℕ) : ℕ := semLen * ratio

/-- Modelled from the spec: CoarseStage generation (section 4.4; the stage
implementation is not under src). The model-plus-sampler is abstracted as
the per-step token oracle tok; the stage emits one flat interleaved stream
of N_COARSE_CODEBOOKS tokens per coarse frame and de-interleaves it. -/
def generateCoarse (tok : ℕ → ℕ) (ratio : ℕ) (semantic : List ℕ) : List (List ℕ) :=
  deInterleave N_COARSE_CODEBOOKS
    ((List.range (N_COARSE_CODEBOOKS * coarseLen ratio semantic.length)).map tok)

/-- Modelled from the spec: FineStage refinement (section 4.5; the stage
implementation is not under src). The coarse codebooks are kept and the
remaining codebooks up to N_FINE_CODEBOOKS are filled position-wise by the
abstracted predictor over the same sequence length; all codebooks are
stacked. -/
def generateFine (predict : ℕ → ℕ → ℕ) (coarse : List (List ℕ)) : List (List ℕ) :=
  coarse ++ (List.range (N_FINE_CODEBOOKS - coarse.length)).map
    (fun cb => (List.range (coarse.headD []).length).map (fun t => predict cb t))

/-- Concrete WNConv1d instance with all-ones direction tensor, used to
instantiate universally quantified statements. -/
def mStd : WNConv1d := ⟨1, 1, 1, 1, 0, 1, 1, none, fun _ => 1, fun _ _ _ => 1⟩

/-- Concrete WNConvTranspose1d instance with all-ones direction tensor. -/
def mTr : WNConvTranspose1d := ⟨1, 1, 1, 1, 0, 1, 0, none, fun _ => 1, fun _ _ _ => 1⟩

/-- Concrete 3-dimensional all-ones NDTensor of shape (1, 1, 1). -/
def x0 : NDTensor := ⟨[1, 1, 1], fun _ => 1⟩

/-- The per-output-channel norm of an all-ones 1-by-1-by-1 tensor is 1, in
particular nonzero. -/
theorem wnorm0_one_ne : ∀ o : ℕ, wnorm0 1 1 (fun _ _ _ => (1:ℝ)) o ≠ 0 := by
  intro o
  unfold wnorm0
  simp

/-- The per-input-channel norm of an all-ones 1-by-1-by-1 tensor is 1, in
particular nonzero. -/
theorem wnorm2_one_ne : ∀ i : ℕ, wnorm2 1 1 (fun _ _ _ => (1:ℝ)) i ≠ 0 := by
  intro i
  unfold wnorm2
  simp

/-- Claim C1, amended: for every magnitude parameter and every direction
tensor with nonzero per-output-channel norm, the effective kernel of
WNConv1d.call has per-output-channel Euclidean norm equal to the absolute
value of that channel's magnitude entry. -/
theorem effW1_channel_norm_abs (K I : ℕ) (g : ℕ → ℝ) (v : ℕ → ℕ → ℕ → ℝ) (o : ℕ)
    (h : wnorm0 K I v o ≠ 0) :
    wnorm0 K I (effW1 K I g v) o = |g o| := by
  set S := ∑ k ∈ Finset.range K, ∑ i ∈ Finset.range I, v o k i ^ 2 with hSdef
  have hS : (0:ℝ) ≤ S := by rw [hSdef]; positivity
  have hn : wnorm0 K I v o = Real.sqrt S := rfl
  have hS0 : S ≠ 0 := by
    intro h0
    exact h (by rw [hn, h0, Real.sqrt_zero])
  have hcalc : ∑ k ∈ Finset.range K, ∑ i ∈ Finset.range I, effW1 K I g v o k i ^ 2
      = g o ^ 2 := by
    have hterm : ∀ k i, effW1 K I g v o k i ^ 2 = g o ^ 2 / S * v o k i ^ 2 := by
      intro k i
      unfold effW1
      rw [hn, div_pow, mul_pow, Real.sq_sqrt hS]
      ring
    calc ∑ k ∈ Finset.range K, ∑ i ∈ Finset.range I, effW1 K I g v o k i ^ 2
        = ∑ k ∈ Finset.range K, ∑ i ∈ Finset.range I, g o ^ 2 / S * v o k i ^ 2 := by
          refine Finset.sum_congr rfl fun k _ => Finset.sum_congr rfl fun i _ => hterm k i
      _ = g o ^ 2 / S * S := by
          rw [hSdef]
          simp only [← Finset.mul_sum]
      _ = g o ^ 2 := div_mul_cancel₀ _ hS0
  show Real.sqrt (∑ k ∈ Finset.range K, ∑ i ∈ Finset.range I, effW1 K I g v o k i ^ 2)
      = |g o|
  rw [hcalc, Real.sqrt_sq_eq_abs]

/-- Claim C1, counterexample to the literal statement: with the magnitude
parameter constantly -1 and the all-ones direction tensor (whose per-channel
norm is nonzero), the per-channel norm of the effective kernel is 1, not
the magnitude entry -1. -/
theorem effW1_channel_norm_counterex :
    wnorm0 1 1 (fun _ _ _ => (1:ℝ)) 0 ≠ 0 ∧
    wnorm0 1 1 (effW1 1 1 (fun _ => (-1:ℝ)) (fun _ _ _ => (1:ℝ))) 0
      ≠ (fun _ => (-1:ℝ)) 0 := by
  refine ⟨wnorm0_one_ne 0, ?_⟩
  unfold wnorm0 effW1 wnorm0
  norm_num

/-- Claim C1, witness: the amended norm identity holds at the concrete
magnitude 2 and all-ones direction tensor. -/
theorem effW1_channel_norm_abs_witness :
    wnorm0 1 1 (fun _ _ _ => (1:ℝ)) 0 ≠ 0 ∧
    wnorm0 1 1 (effW1 1 1 (fun _ => (2:ℝ)) (fun _ _ _ => (1:ℝ))) 0 = |(2:ℝ)| :=
  ⟨wnorm0_one_ne 0,
    effW1_channel_norm_abs 1 1 (fun _ => (2:ℝ)) (fun _ _ _ => (1:ℝ)) 0 (wnorm0_one_ne 0)⟩

/-- Claim C2, amended: in the transposed variant the reparameterization norm
is taken over all axes except the input-channel axis, and for every
direction tensor with nonzero per-input-channel norm the effective kernel
has per-input-channel norm equal to the absolute value of the corresponding
magnitude entry. -/
theorem effWT_channel_norm_abs (O K : ℕ) (g : ℕ → ℝ) (v : ℕ → ℕ → ℕ → ℝ) (i : ℕ)
    (h : wnorm2 O K v i ≠ 0) :
    wnorm2 O K (effWT O K g v) i = |g i| := by
  set S := ∑ o ∈ Finset.range O, ∑ k ∈ Finset.range K, v o k i ^ 2 with hSdef
  have hS : (0:ℝ) ≤ S := by rw [hSdef]; positivity
  have hn : wnorm2 O K v i = Real.sqrt S := rfl
  have hS0 : S ≠ 0 := by
    intro h0
    exact h (by rw [hn, h0, Real.sqrt_zero])
  have hcalc : ∑ o ∈ Finset.range O, ∑ k ∈ Finset.range K, effWT O K g v o k i ^ 2
      = g i ^ 2 := by
    have hterm : ∀ o k, effWT O K g v o k i ^ 2 = g i ^ 2 / S * v o k i ^ 2 := by
      intro o k
      unfold effWT
      rw [hn, div_pow, mul_pow, Real.sq_sqrt hS]
      ring
    calc ∑ o ∈ Finset.range O, ∑ k ∈ Finset.range K, effWT O K g v o k i ^ 2
        = ∑ o ∈ Finset.range O, ∑ k ∈ Finset.range K, g i ^ 2 / S * v o k i ^ 2 := by
          refine Finset.sum_congr rfl fun o _ => Finset.sum_congr rfl fun k _ => hterm o k
      _ = g i ^ 2 / S * S := by
          rw [hSdef]
          simp only [← Finset.mul_sum]
      _ = g i ^ 2 := div_mul_cancel₀ _ hS0
  show Real.sqrt (∑ o ∈ Finset.range O, ∑ k ∈ Finset.range K, effWT O K g v o k i ^ 2)
      = |g i|
  rw [hcalc, Real.sqrt_sq_eq_abs]

/-- Claim C2, counterexample to the literal statement: with the magnitude
parameter constantly -1 the per-input-channel norm of the transposed
effective kernel is 1, not -1. -/
theorem effWT_channel_norm_counterex :
    wnorm2 1 1 (fun _ _ _ => (1:ℝ)) 0 ≠ 0 ∧
    wnorm2 1 1 (effWT 1 1 (fun _ => (-1:ℝ)) (fun _ _ _ => (1:ℝ))) 0
      ≠ (fun _ => (-1:ℝ)) 0 := by
  refine ⟨wnorm2_one_ne 0, ?_⟩
  unfold wnorm2 effWT wnorm2
  norm_num

/-- Claim C2, witness: the amended identity at the concrete magnitude 3 and
all-ones direction tensor. -/
theorem effWT_channel_norm_abs_witness :
    wnorm2 1 1 (fun _ _ _ => (1:ℝ)) 0 ≠ 0 ∧
    wnorm2 1 1 (effWT 1 1 (fun _ => (3:ℝ)) (fun _ _ _ => (1:ℝ))) 0 = |(3:ℝ)| :=
  ⟨wnorm2_one_ne 0,
    effWT_channel_norm_abs 1 1 (fun _ => (3:ℝ)) (fun _ _ _ => (1:ℝ)) 0 (wnorm2_one_ne 0)⟩

/-- A WNConv1d call is the plain grouped convolution with the effective
kernel, followed by the optional bias. -/
theorem conv_call_eq (m : WNConv1d) (x : ℤ → ℕ → ℝ) :
    m.call x = addBias m.bias
      (conv1d m.kernel_size m.in_channels m.out_channels m.groups
        m.stride m.padding m.dilation x
        (effW1 m.kernel_size m.in_channels m.weight_g m.weight_v)) := by
  unfold WNConv1d.call addBias effW1
  cases hb : m.bias <;> rfl

/-- A WNConvTranspose1d call is the plain transposed convolution with the
effective kernel, followed by the optional bias. -/
theorem convT_call_eq (m : WNConvTranspose1d) (x : ℤ → ℕ → ℝ) :
    m.call x = addBias m.bias
      (convTranspose1d m.kernel_size m.in_channels m.stride m.padding m.dilation x
        (effWT m.out_channels m.kernel_size m.weight_g m.weight_v)) := by
  unfold WNConvTranspose1d.call addBias effWT
  cases hb : m.bias <;> rfl

/-- Claim C7: both call operations are deterministic and side-effect free,
and each output is the plain (transposed) convolution of the input with the
effective kernel, plus the bias when one is present. In this pure embedding
mutation of the parameters or of x is unrepresentable, and determinism is
the statement that equal inputs give equal outputs. -/
theorem wnconv_call_deterministic_plain (m : WNConv1d) (m2 : WNConvTranspose1d)
    (x x2 : ℤ → ℕ → ℝ) (hx : x = x2) :
    (m.call x = m.call x2 ∧ m2.call x = m2.call x2) ∧
    m.call x = addBias m.bias
      (conv1d m.kernel_size m.in_channels m.out_channels m.groups
        m.stride m.padding m.dilation x
        (effW1 m.kernel_size m.in_channels m.weight_g m.weight_v)) ∧
    m2.call x = addBias m2.bias
      (convTranspose1d m2.kernel_size m2.in_channels m2.stride m2.padding m2.dilation x
        (effWT m2.out_channels m2.kernel_size m2.weight_g m2.weight_v)) := by
  subst hx
  exact ⟨⟨rfl, rfl⟩, conv_call_eq m x, convT_call_eq m2 x⟩

/-- Claim C7, witness: instantiation at concrete modules and the zero
input. -/
theorem wnconv_call_deterministic_plain_witness :
    (mStd.call (fun _ _ => 0) = mStd.call (fun _ _ => 0) ∧
      mTr.call (fun _ _ => 0) = mTr.call (fun _ _ => 0)) ∧
    mStd.call (fun _ _ => 0) = addBias mStd.bias
      (conv1d mStd.kernel_size mStd.in_channels mStd.out_channels mStd.groups
        mStd.stride mStd.padding mStd.dilation (fun _ _ => 0)
        (effW1 mStd.kernel_size mStd.in_channels mStd.weight_g mStd.weight_v)) ∧
    mTr.call (fun _ _ => 0) = addBias mTr.bias
      (convTranspose1d mTr.kernel_size mTr.in_channels mTr.stride mTr.padding mTr.dilation
        (fun _ _ => 0)
        (effWT mTr.out_channels mTr.kernel_size mTr.weight_g mTr.weight_v)) :=
  wnconv_call_deterministic_plain mStd mTr (fun _ _ => 0) (fun _ _ => 0) rfl

/-- Scaling the direction tensor by a nonnegative constant scales its
per-output-channel norm by the same constant. -/
theorem wnorm0_scale (K I : ℕ) (c : ℝ) (hc : 0 ≤ c) (v : ℕ → ℕ → ℕ → ℝ) (o : ℕ) :
    wnorm0 K I (fun o k i => c * v o k i) o = c * wnorm0 K I v o := by
  unfold wnorm0
  have hsum : ∑ k ∈ Finset.range K, ∑ i ∈ Finset.range I, (c * v o k i) ^ 2
      = c ^ 2 * ∑ k ∈ Finset.range K, ∑ i ∈ Finset.range I, v o k i ^ 2 := by
    simp only [mul_pow, ← Finset.mul_sum]
  rw [hsum, Real.sqrt_mul (by positivity), Real.sqrt_sq hc]

/-- Scaling the direction tensor by a nonnegative constant scales its
per-input-channel norm by the same constant. -/
theorem wnorm2_scale (O K : ℕ) (c : ℝ) (hc : 0 ≤ c) (v : ℕ → ℕ → ℕ → ℝ) (i : ℕ) :
    wnorm2 O K (fun o k i => c * v o k i) i = c * wnorm2 O K v i := by
  unfold wnorm2
  have hsum : ∑ o ∈ Finset.range O, ∑ k ∈ Finset.range K, (c * v o k i) ^ 2
      = c ^ 2 * ∑ o ∈ Finset.range O, ∑ k ∈ Finset.range K, v o k i ^ 2 := by
    simp only [mul_pow, ← Finset.mul_sum]
  rw [hsum, Real.sqrt_mul (by positivity), Real.sqrt_sq hc]

/-- The effective kernel of the standard variant is invariant under positive
scaling of the direction tensor with nonzero per-channel norms. -/
theorem effW1_scale_inv (K I : ℕ) (c : ℝ) (hc : 0 < c) (g : ℕ → ℝ)
    (v : ℕ → ℕ → ℕ → ℝ) :
    effW1 K I g (fun o k i => c * v o k i) = effW1 K I g v := by
  funext o k i
  unfold effW1
  rw [wnorm0_scale K I c hc.le v o,
    show g o * (c * v o k i) = c * (g o * v o k i) by ring,
    mul_div_mul_left _ _ hc.ne']

/-- The effective kernel of the transposed variant is invariant under
positive scaling of the direction tensor with nonzero per-channel norms. -/
theorem effWT_scale_inv (O K : ℕ) (c : ℝ) (hc : 0 < c) (g : ℕ → ℝ)
    (v : ℕ → ℕ → ℕ → ℝ) :
    effWT O K g (fun o k i => c * v o k i) = effWT O K g v := by
  funext o k i
  unfold effWT
  rw [wnorm2_scale O K c hc.le v i,
    show g i * (c * v o k i) = c * (g i * v o k i) by ring,
    mul_div_mul_left _ _ hc.ne']

/-- Claim C9: the reparameterization is scale-invariant in the direction
parameter. For every c > 0 and direction tensors with nonzero per-channel
norms, replacing weight_v by c * weight_v leaves both effective kernels
unchanged, and hence the output of either call on every input unchanged. -/
theorem wnconv_scale_invariant (c : ℝ) (m : WNConv1d) (m2 : WNConvTranspose1d)
    (hc : 0 < c)
    (h1 : ∀ o, wnorm0 m.kernel_size m.in_channels m.weight_v o ≠ 0)
    (h2 : ∀ i, wnorm2 m2.out_channels m2.kernel_size m2.weight_v i ≠ 0) :
    effW1 m.kernel_size m.in_channels m.weight_g (fun o k i => c * m.weight_v o k i)
        = effW1 m.kernel_size m.in_channels m.weight_g m.weight_v ∧
    effWT m2.out_channels m2.kernel_size m2.weight_g (fun o k i => c * m2.weight_v o k i)
        = effWT m2.out_channels m2.kernel_size m2.weight_g m2.weight_v ∧
    (∀ x, WNConv1d.call
        ⟨m.in_channels, m.out_channels, m.kernel_size, m.stride, m.padding, m.dilation,
          m.groups, m.bias, m.weight_g, fun o k i => c * m.weight_v o k i⟩ x
        = m.call x) ∧
    (∀ x, WNConvTranspose1d.call
        ⟨m2.in_channels, m2.out_channels, m2.kernel_size, m2.stride, m2.padding,
          m2.dilation, m2.output_padding, m2.bias, m2.weight_g,
          fun o k i => c * m2.weight_v o k i⟩ x
        = m2.call x) := by
  have he1 := effW1_scale_inv m.kernel_size m.in_channels c hc m.weight_g m.weight_v
  have he2 := effWT_scale_inv m2.out_channels m2.kernel_size c hc m2.weight_g m2.weight_v
  refine ⟨he1, he2, fun x => ?_, fun x => ?_⟩
  · rw [conv_call_eq, conv_call_eq]
    simp only
    rw [he1]
  · rw [convT_call_eq, convT_call_eq]
    simp only
    rw [he2]

/-- Claim C9, witness: the scale invariance at c = 2 on the concrete
all-ones modules. -/
theorem wnconv_scale_invariant_witness :
    (0:ℝ) < 2 ∧
    (effW1 mStd.kernel_size mStd.in_channels mStd.weight_g
        (fun o k i => 2 * mStd.weight_v o k i)
      = effW1 mStd.kernel_size mStd.in_channels mStd.weight_g mStd.weight_v ∧
    effWT mTr.out_channels mTr.kernel_size mTr.weight_g
        (fun o k i => 2 * mTr.weight_v o k i)
      = effWT mTr.out_channels mTr.kernel_size mTr.weight_g mTr.weight_v ∧
    (∀ x, WNConv1d.call
        ⟨mStd.in_channels, mStd.out_channels, mStd.kernel_size, mStd.stride, mStd.padding,
          mStd.dilation, mStd.groups, mStd.bias, mStd.weight_g,
          fun o k i => 2 * mStd.weight_v o k i⟩ x
        = mStd.call x) ∧
    (∀ x, WNConvTranspose1d.call
        ⟨mTr.in_channels, mTr.out_channels, mTr.kernel_size, mTr.stride, mTr.padding,
          mTr.dilation, mTr.output_padding, mTr.bias, mTr.weight_g,
          fun o k i => 2 * mTr.weight_v o k i⟩ x
        = mTr.call x)) :=
  ⟨by norm_num,
    wnconv_scale_invariant 2 mStd mTr (by norm_num)
      (fun o => wnorm0_one_ne o) (fun i => wnorm2_one_ne i)⟩

/-- Claim C8, counterexample to the literal statement: constructed with
bias=True, the standard variant holds three trained parameters (bias,
weight_g, weight_v), not exactly two. -/
theorem wnconv_init_two_params_counterex :
    (WNConv1d.init 1 1 1 1 0 1 1 true (fun _ _ _ => 1)).trainedParams.length ≠ 2 := by
  unfold WNConv1d.init WNConv1d.trainedParams
  simp

/-- Claim C8, amended: the standard variant constructs from (in_channels,
out_channels, kernel_size, stride, padding, dilation, groups, bias) and the
transposed variant from (in_channels, out_channels, kernel_size, stride,
padding, dilation, output_padding, bias); each then holds the per-channel
magnitude weight_g and the native-shape direction tensor weight_v as
trained parameters, plus a bias parameter exactly when bias=True. -/
theorem wnconv_init_params_spec (ic oc ks st pd dl gr opd : ℕ) (b : Bool)
    (w w2 : ℕ → ℕ → ℕ → ℝ) :
    ((WNConv1d.init ic oc ks st pd dl gr b w).trainedParams
        = if b then ["bias", "weight_g", "weight_v"] else ["weight_g", "weight_v"]) ∧
    ((WNConvTranspose1d.init ic oc ks st pd dl opd b w2).trainedParams
        = if b then ["bias", "weight_g", "weight_v"] else ["weight_g", "weight_v"]) ∧
    (WNConv1d.init ic oc ks st pd dl gr b w).weight_g
        = (fun o => wnorm0 ks ic w o) ∧
    (WNConv1d.init ic oc ks st pd dl gr b w).weight_v
        = (fun o k i => w o k i / (wnorm0 ks ic w o + eps)) ∧
    (WNConvTranspose1d.init ic oc ks st pd dl opd b w2).weight_g
        = (fun i => wnorm2 oc ks w2 i) ∧
    (WNConvTranspose1d.init ic oc ks st pd dl opd b w2).weight_v
        = (fun o k i => w2 o k i / (wnorm2 oc ks w2 i + eps)) ∧
    (WNConv1d.init ic oc ks st pd dl gr b w).groups = gr ∧
    (WNConvTranspose1d.init ic oc ks st pd dl opd b w2).output_padding = opd := by
  refine ⟨?_, ?_, rfl, rfl, rfl, rfl, rfl, rfl⟩ <;> cases b <;>
    simp [WNConv1d.init, WNConv1d.trainedParams,
      WNConvTranspose1d.init, WNConvTranspose1d.trainedParams]

/-- The inverse-CDF walk lands on an index of strictly positive weight
whenever the residual mass is nonnegative and below the remaining total. -/
theorem drawFrom_pos {V : ℕ} (w : Fin V → ℝ) :
    ∀ (l : List (Fin V)) (u : ℝ) (d : Fin V), 0 ≤ u → u < (l.map w).sum →
      0 < w (drawFrom w u l d) := by
  intro l
  induction l with
  | nil =>
    intro u d hu hlt
    simp only [List.map_nil, List.sum_nil] at hlt
    linarith
  | cons i rest ih =>
    intro u d hu hlt
    simp only [List.map_cons, List.sum_cons] at hlt
    by_cases h : u < w i
    · simp only [drawFrom, if_pos h]
      linarith
    · simp only [drawFrom, if_neg h]
      exact ih (u - w i) i (by linarith) (by linarith)

/-- Claim C3: for every vocabulary size, logits vector, temperature > 0 and
restriction set, as long as the allowed set (the restriction when given,
the whole vocabulary otherwise) is nonempty, sample succeeds and returns an
index inside the allowed set; the returned value has type Fin V, so it is a
valid vocabulary id, and the embedding is a pure function of logits. -/
theorem sample_mem_restriction (V : ℕ) (logits : Fin V → ℝ) (temperature u : ℝ)
    (restrict : Option (Finset (Fin V)))
    (hT : 0 < temperature) (hu0 : 0 ≤ u) (hu1 : u < 1)
    (hR : (restrict.getD Finset.univ).Nonempty) :
    ∃ i : Fin V, sample V logits temperature restrict u = Except.ok i ∧
      i ∈ restrict.getD Finset.univ := by
  set R := restrict.getD Finset.univ with hRdef
  set w := sampleWeights V logits temperature R hR with hwdef
  have hw0 : ∀ j, j ∉ R → w j = 0 := by
    intro j hj
    rw [hwdef]
    unfold sampleWeights
    simp [hj]
  have hwpos : ∀ j ∈ R, 0 < w j := by
    intro j hj
    rw [hwdef]
    unfold sampleWeights
    simp only [if_pos hj]
    exact Real.exp_pos _
  have htot : 0 < ∑ i ∈ R, w i := Finset.sum_pos hwpos hR
  have huniv : ∑ i ∈ R, w i = ∑ i, w i :=
    Finset.sum_subset (Finset.subset_univ R) (fun j _ hj => hw0 j hj)
  have hlist : ((List.finRange V).map w).sum = ∑ i ∈ R, w i := by
    rw [huniv, Fin.sum_univ_def]
  have hdraw : 0 < w (drawFrom w (u * ∑ i ∈ R, w i) (List.finRange V) (R.min' hR)) := by
    apply drawFrom_pos
    · positivity
    · rw [hlist]
      calc u * ∑ i ∈ R, w i < 1 * ∑ i ∈ R, w i := by
            exact mul_lt_mul_of_pos_right hu1 htot
        _ = ∑ i ∈ R, w i := one_mul _
  refine ⟨drawFrom w (u * ∑ i ∈ R, w i) (List.finRange V) (R.min' hR), ?_, ?_⟩
  · unfold sample
    rw [dif_pos hR]
  · by_contra hni
    exact absurd (hw0 _ hni) (ne_of_gt hdraw)

/-- Claim C3, witness: on a 2-token vocabulary with zero logits,
temperature 1, restriction to index 0 and uniform draw one half, sample
returns an index inside the restriction set. -/
theorem sample_mem_restriction_witness :
    (0:ℝ) < 1 ∧ (0:ℝ) ≤ 1 / 2 ∧ (1:ℝ) / 2 < 1 ∧
    ((some ({0} : Finset (Fin 2))).getD Finset.univ).Nonempty ∧
    ∃ i : Fin 2, sample 2 (fun _ => 0) 1 (some {0}) (1 / 2) = Except.ok i ∧
      i ∈ (some ({0} : Finset (Fin 2))).getD Finset.univ :=
  ⟨by norm_num, by norm_num, by norm_num, by decide,
    sample_mem_restriction 2 (fun _ => 0) 1 (1 / 2) (some {0})
      (by norm_num) (by norm_num) (by norm_num) (by decide)⟩

/-- Claim C4: for every semantic token sequence, the de-interleaved coarse
output has exactly N_COARSE_CODEBOOKS parallel sequences, each of the
length given by the deterministic ratio function of the semantic length. -/
theorem generateCoarse_shape (tok : ℕ → ℕ) (ratio : ℕ) (semantic : List ℕ) :
    (generateCoarse tok ratio semantic).map List.length
      = List.replicate N_COARSE_CODEBOOKS (coarseLen ratio semantic.length) := by
  rw [List.eq_replicate_iff]
  constructor
  · simp [generateCoarse, deInterleave]
  · intro b hb
    simp only [generateCoarse, deInterleave, List.map_map, List.mem_map,
      List.mem_range, Function.comp] at hb
    obtain ⟨a, _, rfl⟩ := hb
    simp only [List.length_map, List.length_range, N_COARSE_CODEBOOKS]
    omega

/-- Claim C5: for every coarse input with N_COARSE_CODEBOOKS rows of equal
length L, the fine stage output stacks N_FINE_CODEBOOKS rows of that same
length L. -/
theorem generateFine_shape (predict : ℕ → ℕ → ℕ) (coarse : List (List ℕ)) (L : ℕ)
    (hlen : coarse.length = N_COARSE_CODEBOOKS)
    (hrow : ∀ row ∈ coarse, row.length = L) :
    (generateFine predict coarse).map List.length
      = List.replicate N_FINE_CODEBOOKS L := by
  obtain ⟨r0, r1, rfl⟩ := List.length_eq_two.mp hlen
  have h0 : r0.length = L := hrow r0 (by simp)
  have h1 : r1.length = L := hrow r1 (by simp)
  rw [List.eq_replicate_iff]
  constructor
  · simp [generateFine, N_FINE_CODEBOOKS]
  · intro b hb
    simp only [generateFine, List.map_append, List.map_map, List.mem_append,
      List.mem_map, List.mem_range, Function.comp, List.map_cons, List.map_nil,
      List.mem_cons, List.not_mem_nil, or_false, List.length_map,
      List.length_range] at hb
    rcases hb with (rfl | rfl) | ⟨a, _, rfl⟩
    · exact h0
    · exact h1
    · simpa using h0

/-- Claim C5, witness: two concrete singleton coarse rows yield eight
stacked rows of length one. -/
theorem generateFine_shape_witness :
    ([[5], [7]] : List (List ℕ)).length = N_COARSE_CODEBOOKS ∧
    (generateFine (fun _ _ => 0) [[5], [7]]).map List.length
      = List.replicate N_FINE_CODEBOOKS 1 :=
  ⟨rfl, generateFine_shape (fun _ _ => 0) [[5], [7]] 1 rfl (by decide)⟩

/-- Claim C6: truncate_to_last is a no-op when the cache length is at most
n, and otherwise yields exactly the last n entries in their original order;
the operation is a total function, so it never raises. -/
theorem truncate_to_last_spec {α : Type} (c : KVCache α) (n : ℕ) :
    (c.length ≤ n → c.truncate_to_last n = c) ∧
    (n < c.length →
      (c.truncate_to_last n).length = n ∧
      c.steps = c.steps.take (c.length - n) ++ (c.truncate_to_last n).steps) := by
  constructor
  · intro h
    unfold KVCache.truncate_to_last
    rw [Nat.sub_eq_zero_of_le h]
    cases c
    simp
  · intro h
    constructor
    · unfold KVCache.length at h
      unfold KVCache.truncate_to_last KVCache.length
      simp only [List.length_drop]
      omega
    · unfold KVCache.truncate_to_last
      exact (List.take_append_drop _ _).symm

/-- Claim C6, witness: truncating a 2-entry cache to 5 is a no-op, and
truncating a 3-entry cache to 1 keeps exactly the final entry. -/
theorem truncate_to_last_spec_witness :
    ((⟨[1, 2]⟩ : KVCache ℕ).length ≤ 5 ∧
      (⟨[1, 2]⟩ : KVCache ℕ).truncate_to_last 5 = ⟨[1, 2]⟩) ∧
    (1 < (⟨[1, 2, 3]⟩ : KVCache ℕ).length ∧
      ((⟨[1, 2, 3]⟩ : KVCache ℕ).truncate_to_last 1).length = 1 ∧
      (⟨[1, 2, 3]⟩ : KVCache ℕ).steps
        = (⟨[1, 2, 3]⟩ : KVCache ℕ).steps.take ((⟨[1, 2, 3]⟩ : KVCache ℕ).length - 1)
          ++ ((⟨[1, 2, 3]⟩ : KVCache ℕ).truncate_to_last 1).steps) :=
  ⟨⟨by decide, (truncate_to_last_spec (⟨[1, 2]⟩ : KVCache ℕ) 5).1 (by decide)⟩,
    ⟨by decide, (truncate_to_last_spec (⟨[1, 2, 3]⟩ : KVCache ℕ) 1).2 (by decide)⟩⟩

/-- Claim C10: normalize_weight raises ValueError if and only if its input
is not exactly 3-dimensional, and on every 3-dimensional (O, K, I) input it
returns without error the per-slice Euclidean norm: for except_dim = 0 the
value at an output-channel index below O agrees with wnorm0, and for
except_dim = 2 the value at an input-channel index below I agrees with
wnorm2. -/
theorem normalize_weight_spec (x : NDTensor) (e : ℕ) :
    ((normalize_weight x e).toOption.isSome ↔ x.ndim = 3) ∧
    (∀ O K I, x.shape = [O, K, I] → ∀ idx : ℕ → ℕ, idx 0 < O →
      ((normalize_weight x 0).toOption.getD default).data idx
        = wnorm0 K I (fun o k i => x.data (fun a => [o, k, i].getD a 0)) (idx 0)) ∧
    (∀ O K I, x.shape = [O, K, I] → ∀ idx : ℕ → ℕ, idx 2 < I →
      ((normalize_weight x 2).toOption.getD default).data idx
        = wnorm2 O K (fun o k i => x.data (fun a => [o, k, i].getD a 0)) (idx 2)) := by
  refine ⟨?_, ?_, ?_⟩
  · by_cases h : x.ndim = 3 <;> simp [normalize_weight, h, Except.toOption]
  · intro O K I hsh idx hidx
    have h3 : x.ndim = 3 := by simp [NDTensor.ndim, hsh]
    rw [normalize_weight, if_neg (by simp [h3])]
    simp only [Except.toOption, Option.getD_some]
    rw [hsh]
    simp only [List.getD_cons_zero, List.getD_cons_succ]
    unfold wnorm0
    congr 1
    have hpull : ∀ j0, (∑ j1 ∈ Finset.range K, ∑ j2 ∈ Finset.range I,
        if j0 = idx 0 then x.data (fun a => [j0, j1, j2].getD a 0) ^ 2 else 0)
        = if j0 = idx 0 then
            ∑ j1 ∈ Finset.range K, ∑ j2 ∈ Finset.range I,
              x.data (fun a => [j0, j1, j2].getD a 0) ^ 2
          else 0 := by
      intro j0
      split <;> simp
    rw [Finset.sum_congr rfl (fun j0 _ => hpull j0), Finset.sum_ite_eq',
      if_pos (Finset.mem_range.mpr hidx)]
  · intro O K I hsh idx hidx
    have h3 : x.ndim = 3 := by simp [NDTensor.ndim, hsh]
    rw [normalize_weight, if_neg (by simp [h3])]
    simp only [Except.toOption, Option.getD_some]
    rw [hsh]
    simp only [List.getD_cons_zero, List.getD_cons_succ]
    unfold wnorm2
    congr 1
    refine Finset.sum_congr rfl fun j0 _ => Finset.sum_congr rfl fun j1 _ => ?_
    rw [Finset.sum_ite_eq', if_pos (Finset.mem_range.mpr hidx)]

/-- Claim C10, witness: on the concrete all-ones (1, 1, 1) tensor the call
succeeds and its value at channel 0 is the wnorm0 per-channel norm. -/
theorem normalize_weight_spec_witness :
    ((normalize_weight x0 0).toOption.isSome ↔ x0.ndim = 3) ∧
    x0.shape = [1, 1, 1] ∧
    ((normalize_weight x0 0).toOption.getD default).data (fun _ => 0)
      = wnorm0 1 1 (fun o k i => x0.data (fun a => [o, k, i].getD a 0)) ((fun _ : ℕ => 0) 0) :=
  ⟨(normalize_weight_spec x0 0).1, rfl,
    (normalize_weight_spec x0 0).2.1 1 1 1 rfl (fun _ => 0) (by norm_num)⟩

end
